import Mathlib

/-!
Verification of the ifBO synthetic learning-curve prior generators
(`pfns4hpo/priors/hpo_lc_pfn_bnn3c.py` and
`pfns4hpo/priors/multicurves_with_configurations.py`).

Shallow embedding conventions:
* numpy / torch tensors become Lean lists; machine floats become `ℚ`
  where the code only does exact rational arithmetic (indices, epochs,
  uniform draws are carried as values) and `ℝ` where transcendental
  functions appear (`exp`, `rpow`, Cholesky factors);
* every call to a random sampler (`np.random.*`) becomes an explicit
  argument holding the drawn value, constrained by hypotheses to the
  range the sampler guarantees;
* the BNN forward pass and the scipy quantile functions are the
  randomness boundary: their outputs enter as explicit arguments;
* fallible code (`assert`, `np.random.randint` on an empty range)
  returns `Except String`.
-/

namespace IfBO

/-! ## Calibration table and inverse-CDF lookups (hpo_lc_pfn_bnn3c.py)

`DatasetPrior.output_sorted = np.sort(torch.flatten(output).numpy())`
(line 140): a sorted array of sampled BNN outputs.  For a sorted array,
`np.searchsorted(table, v, side='left')` returns the number of entries
strictly below `v`. -/

/-- np.searchsorted(table, v, side='left') on a sorted table: the number of
entries strictly less than `v`. -/
def searchsorted_left (table : List ℚ) (v : ℚ) : ℕ :=
  table.countP (fun x => decide (x < v))

/-- DatasetPrior.output_sorted (source line 140): np.sort of the flattened
Monte-Carlo sample of BNN outputs. -/
def output_sorted (samples : List ℚ) : List ℚ :=
  samples.mergeSort

/-- DatasetPrior.uniform (source lines 252-254):
(b-a) * searchsorted(output_sorted, v, 'left') / len(output_sorted) + a. -/
def DatasetPrior.uniform (table : List ℚ) (v : ℚ) (a b : ℚ) : ℚ :=
  (b - a) * (searchsorted_left table v) / table.length + a

/-- MyRNG.uniform (source lines 285-288): identical formula, applied to a
precomputed searchsorted index `idx = indices[counter]`. -/
def MyRNG.uniform (table : List ℚ) (idx : ℕ) (a b : ℚ) : ℚ :=
  (b - a) * idx / table.length + a

/-- eps = 0.5 / len(output_sorted) (source lines 257, 291): offset used by
the normal/beta/gamma/exponential transforms to avoid u = 0 or u = 1. -/
def tableEps (table : List ℚ) : ℚ := (1 / 2) / table.length

/-- The pre-quantile value `u` computed by MyRNG.normal / DatasetPrior.normal
(source lines 256-259, 290-293): uniform with a = eps, b = 1 - eps; the
result is then fed to scipy's norm.ppf. -/
def MyRNG.normal_u (table : List ℚ) (v : ℚ) : ℚ :=
  DatasetPrior.uniform table v (tableEps table) (1 - tableEps table)

/-! ## Correlated noise process: progress_noise (hpo_lc_pfn_bnn3c.py 14-26)

The function draws `Z = np.random.normal(0, sigma, size=(N,))` (so `Z` is
`sigma` times a standard normal vector), builds
`SIGMA = np.exp(-(np.subtract.outer(X, X)**2)/L)` with **no** `sigma**2`
factor, adds `EPS*np.eye(N)` with `EPS = 10**-9`, Cholesky-factors
`C = np.linalg.cholesky(SIGMA)` and returns `C @ Z`.  The Cholesky factor
is passed below as the matrix `C`; the standard-normal draws enter as
`Zstd`, so the code's `Z` is `progressNoiseZ sigma Zstd`. -/

/-- The covariance matrix progress_noise factorizes (source lines 20-22):
SIGMA_ij = exp(-(X_i - X_j)^2 / L) plus the 1e-9 diagonal jitter.  Note the
absence of any `sigma` factor. -/
noncomputable def progressNoiseCov {n : ℕ} (X : Fin n → ℝ) (L : ℝ) :
    Matrix (Fin n) (Fin n) ℝ := fun i j =>
  Real.exp (-(X i - X j) ^ 2 / L) + if i = j then 1 / 10 ^ 9 else 0

/-- The noise vector Z = np.random.normal(0, sigma, size=(N,)) (source line
18), written as `sigma` times the underlying standard-normal draws. -/
def progressNoiseZ {n : ℕ} (sigma : ℝ) (Zstd : Fin n → ℝ) : Fin n → ℝ :=
  fun i => sigma * Zstd i

/-- progress_noise (source lines 14-26): returns C @ Z where C is the
Cholesky factor of `progressNoiseCov X L` and Z the draws of line 18. -/
def progress_noise {n : ℕ} (sigma : ℝ) (C : Matrix (Fin n) (Fin n) ℝ)
    (Zstd : Fin n → ℝ) : Fin n → ℝ :=
  C.mulVec (progressNoiseZ sigma Zstd)

/-- Modelled from the claim's words (spec section 4.4), for comparison with
`progressNoiseCov`: a covariance matrix `Sigma_ij = sigma^2 *
exp(-(X_i-X_j)^2/L)` plus the same 1e-9 jitter. -/
noncomputable def progressNoiseCovClaimed {n : ℕ} (X : Fin n → ℝ)
    (sigma L : ℝ) : Matrix (Fin n) (Fin n) ℝ := fun i j =>
  sigma ^ 2 * Real.exp (-(X i - X j) ^ 2 / L) + if i = j then 1 / 10 ^ 9 else 0

/-! ## pow3 (multicurves_with_configurations.py 12-13) -/

/-- pow3(x, a, c, alpha) = c - a * torch.pow(x+1, -alpha) (source lines
12-13), with torch.pow embedded as the real power function. -/
noncomputable def pow3 (x a c alpha : ℝ) : ℝ :=
  c - a * (x + 1) ^ (-alpha)

/-! ## np.random.randint

np.random.randint(low, high) draws from [low, high); it raises ValueError
when low >= high.  The drawn value enters as `draw`. -/

/-- np.random.randint(lo, hi): ValueError on an empty range, otherwise a
value in [lo, hi) determined by the draw. -/
def np_randint (lo hi : ℕ) (draw : ℕ) : Except String ℕ :=
  if lo < hi then .ok (lo + draw % (hi - lo)) else .error "ValueError"

/-! ## get_batch of hpo_lc_pfn_bnn3c.py (lines 319-418)

Per batch element the code draws `n_levels`, Gamma weights, and the
curve-slot `ordering` (a without-replacement weighted sample of `seq_len`
slot ids from `np.repeat(np.arange(seq_len), n_levels)`, so each id occurs
at most `n_levels` times), counts `epochs_per_curve` and
`cutoff_per_curve` (lines 364-371), builds each curve's progress positions
`curve_xs` (lines 381-397), and assembles the sequence with a per-curve
consumption counter (lines 400-410). -/

/-- epochs_per_curve (source lines 365-369): how many positions of
`ordering` curve `cid` owns. -/
def epochs_per_curve (ordering : List ℕ) (cid : ℕ) : ℕ :=
  ordering.count cid

/-- cutoff_per_curve (source lines 365-371): how many of curve `cid`'s
positions fall before single_eval_pos `sep`. -/
def cutoff_per_curve (ordering : List ℕ) (sep cid : ℕ) : ℕ :=
  (ordering.take sep).count cid

/-- curve_xs for one curve (source lines 384-391): the first
`cutoff_per_curve` entries are np.arange(1, cutoff+1)/n_levels, the rest
are the without-replacement query-level draws (`queries cid`, each in
(cutoff, n_levels]) divided by n_levels. -/
def curve_xs (ordering : List ℕ) (sep n_levels : ℕ) (queries : ℕ → List ℕ)
    (cid : ℕ) : List ℚ :=
  ((List.range' 1 (cutoff_per_curve ordering sep cid)).map
      (fun k : ℕ => (k : ℚ) / (n_levels : ℚ)))
    ++ ((queries cid).map (fun k : ℕ => (k : ℚ) / (n_levels : ℚ)))

/-- Mutable state of the assembly loop of source lines 400-410:
curve_counters plus the accumulated id_curve, epoch, config and curve_val
columns. -/
structure AsmState where
  counters : ℕ → ℕ
  id_curve : List ℕ
  epoch : List ℚ
  config : List (List ℚ)
  vals : List ℝ

/-- One iteration of the assembly loop (source lines 401-410) at sequence
position `i` with curve id `cid = ordering[i]`: ids below single_eval_pos
or of already-seen curves are cid+1, other ids are the sentinel 0; epoch
and value are the curve's next unconsumed entries. -/
def asmStep (sep : ℕ) (cxs : ℕ → List ℚ) (cys : ℕ → List ℝ)
    (ccfg : ℕ → List ℚ) (s : AsmState) (i cid : ℕ) : AsmState :=
  { counters := fun c => if c = cid then s.counters c + 1 else s.counters c
    id_curve := s.id_curve ++
      [if i < sep ∨ 0 < s.counters cid then cid + 1 else 0]
    epoch := s.epoch ++ [(cxs cid).getD (s.counters cid) 0]
    config := s.config ++ [ccfg cid]
    vals := s.vals ++ [(cys cid).getD (s.counters cid) 0] }

/-- The assembly loop of source lines 400-410, iterating over the
remaining suffix of `ordering` with `i` the current sequence position. -/
def runAsmAux (sep : ℕ) (cxs : ℕ → List ℚ) (cys : ℕ → List ℝ)
    (ccfg : ℕ → List ℚ) : ℕ → List ℕ → AsmState → AsmState
  | _, [], s => s
  | i, cid :: rest, s =>
      runAsmAux sep cxs cys ccfg (i + 1) rest (asmStep sep cxs cys ccfg s i cid)

/-- Initial state of the assembly loop: all counters zero, all columns
empty (source lines 344-347, 400). -/
def initAsm : AsmState := ⟨fun _ => 0, [], [], [], []⟩

/-- The full assembly loop for one batch element (source lines 400-410). -/
def runAsm (sep : ℕ) (cxs : ℕ → List ℚ) (cys : ℕ → List ℝ)
    (ccfg : ℕ → List ℚ) (ordering : List ℕ) : AsmState :=
  runAsmAux sep cxs cys ccfg 0 ordering initAsm

/-- One batch element's x tensor rows (source line 412):
torch.cat([torch.stack([id_curve, epoch], dim=1), config], dim=1), i.e.
row i = [id_curve[i], epoch[i]] ++ config[i]. -/
def elemX (s : AsmState) : List (List ℚ) :=
  (List.range s.id_curve.length).map (fun i =>
    (s.id_curve.getD i 0 : ℚ) :: s.epoch.getD i 0 :: s.config.getD i [])

/-- torch.stack(_, dim=1) (source lines 415-416): turns the per-element
lists (each seq_len long) into a (seq_len, batch_size, _) tensor. -/
def stackDim1 {α : Type} (d : α) (elems : List (List α)) (seq_len : ℕ) :
    List (List α) :=
  (List.range seq_len).map (fun i => elems.map (fun el => el.getD i d))

/-- The Batch record returned by get_batch (source line 418):
Batch(x=x, y=y, target_y=y). -/
structure BatchData where
  x : List (List (List ℚ))
  y : List (List ℝ)
  target_y : List (List ℝ)

/-- Per-batch-element randomness consumed by get_batch of
hpo_lc_pfn_bnn3c.py: the fidelity-level count (line 350), the
without-replacement slot ordering (lines 355-362), the query-level draws
(lines 387-390), the drawn configurations (line 377) and the curve values
produced by the curves function of curves_for_configs (lines 378, 393). -/
structure HpoDraws where
  n_levels : ℕ
  ordering : List ℕ
  queries : ℕ → List ℕ
  ccfg : ℕ → List ℚ
  cys : ℕ → List ℝ

/-- get_batch of hpo_lc_pfn_bnn3c.py (lines 319-418): asserts
num_features >= 2 (line 330), draws num_params = np.random.randint(1,
num_features - 1) (line 333), runs the assembly loop per batch element and
stacks the columns along dim 1 (lines 343-418). -/
def get_batch_hpo (batch_size seq_len num_features sep : ℕ) (np_draw : ℕ)
    (draws : ℕ → HpoDraws) : Except String BatchData :=
  if ¬ 2 ≤ num_features then .error "AssertionError"
  else
    match np_randint 1 (num_features - 1) np_draw with
    | .error e => .error e
    | .ok _num_params =>
      let elems := (List.range batch_size).map (fun e =>
        let d := draws e
        runAsm sep (curve_xs d.ordering sep d.n_levels d.queries) d.cys
          d.ccfg d.ordering)
      let y := (List.range seq_len).map (fun i =>
        elems.map (fun s => s.vals.getD i 0))
      .ok { x := stackDim1 [] (elems.map elemX) seq_len, y := y, target_y := y }

/-- A concrete instantiation of the per-element randomness of
get_batch_hpo, used to evaluate the embedding at one input: 20 fidelity
levels, the ordering 0, ..., 19 (each curve owns one position), one query
level per query-region curve, one active parameter per configuration. -/
def hpoDrawsEx : ℕ → HpoDraws := fun _ =>
  { n_levels := 20
    ordering := List.range 20
    queries := fun c => if c < 10 then [] else [c + 1]
    ccfg := fun _ => [0]
    cys := fun _ => [0] }

/-! ## get_batch of multicurves_with_configurations.py (lines 90-248),
non-load_path branch (lines 146-248)

The per-element loop (lines 197-241) walks `ncurves * nepochs` positions,
selecting a curve per the ordering policy, then records
id_curve[i] = ids[selected], curve_val[i] = curves[selected][cutoff],
config[i], increments cutoff[selected] and sets epoch[i] to the
incremented cutoff. -/

/-- One curve's noisy trajectory (source lines 183-185):
pow3(x_, a, c, alpha) + noise evaluated at x_ = torch.arange(1, nepochs+1),
with the additive Gaussian noise draws passed in as `noise`. -/
noncomputable def mcCurveVals (nepochs : ℕ) (a c alpha : ℝ)
    (noise : List ℝ) : List ℝ :=
  List.zipWith (fun (k : ℕ) (z : ℝ) => pow3 (k : ℝ) a c alpha + z)
    (List.range' 1 nepochs) noise

/-- Mutable state of the multicurves ordering loop (source lines 197-241):
the per-curve cutoff counters and the accumulated output columns; `sels`
records the sequence of `selected` indices (the trace of line 199-236's
choices), from which id_curve is read off via the shuffled `ids`. -/
structure McState where
  cutoff : List ℕ
  sels : List ℕ
  id_curve : List ℕ
  epoch : List ℕ
  vals : List ℝ
  cfg : List (List ℚ)

/-- One iteration of the multicurves loop body (source lines 237-241):
id = ids[selected], value = curves[selected][cutoff[selected]],
config row, cutoff[selected] += 1, epoch = the incremented cutoff. -/
def mcStep (curves : ℕ → List ℝ) (ccfg : ℕ → List ℚ) (ids : List ℕ)
    (selected : ℕ) (s : McState) : McState :=
  { cutoff := s.cutoff.set selected (s.cutoff.getD selected 0 + 1)
    sels := s.sels ++ [selected]
    id_curve := s.id_curve ++ [ids.getD selected 0]
    epoch := s.epoch ++ [s.cutoff.getD selected 0 + 1]
    vals := s.vals ++ [(curves selected).getD (s.cutoff.getD selected 0) 0]
    cfg := s.cfg ++ [ccfg selected] }

/-- The multicurves ordering loop (source lines 198-241), running `k` more
iterations from position `i`; `sel` maps the position and current cutoff
vector to the selected curve index. -/
def runMcAux (sel : ℕ → List ℕ → ℕ) (curves : ℕ → List ℝ)
    (ccfg : ℕ → List ℚ) (ids : List ℕ) : ℕ → ℕ → McState → McState
  | _, 0, s => s
  | i, k + 1, s =>
      runMcAux sel curves ccfg ids (i + 1) k
        (mcStep curves ccfg ids (sel i s.cutoff) s)

/-- Initial state of the multicurves loop: cutoff = torch.zeros(ncurves)
(source line 197), all columns empty. -/
def initMc (ncurves : ℕ) : McState := ⟨List.replicate ncurves 0, [], [], [], [], []⟩

/-- The full multicurves ordering loop over `n` positions. -/
def runMc (sel : ℕ → List ℕ → ℕ) (curves : ℕ → List ℝ) (ccfg : ℕ → List ℚ)
    (ids : List ℕ) (ncurves n : ℕ) : McState :=
  runMcAux sel curves ccfg ids 0 n (initMc ncurves)

/-- URS selection (source lines 199-201): np.random.choice over the
candidates with cutoff < nepochs; the choice enters as the oracle
`chooseU`, which returns a member of any nonempty candidate list. -/
def ursSel (ncurves nepochs : ℕ) (chooseU : ℕ → List ℕ → ℕ) (i : ℕ)
    (cutoff : List ℕ) : ℕ :=
  chooseU i ((List.range ncurves).filter
    (fun j => decide (cutoff.getD j 0 < nepochs)))

/-- BFS selection (source lines 202-203): round-robin i % ncurves. -/
def bfsSel (ncurves : ℕ) (i : ℕ) (_cutoff : List ℕ) : ℕ := i % ncurves

/-- DFS selection (source lines 204-205): i // nepochs. -/
def dfsSel (nepochs : ℕ) (i : ℕ) (_cutoff : List ℕ) : ℕ := i / nepochs

/-- The normalized softmax weights of source lines 225-226:
greediness ** values, divided by their sum. -/
noncomputable def softmaxWeights (greediness : ℝ) (values : List ℝ) :
    List ℝ :=
  (values.map (fun v => greediness ^ v)).map
    (fun w => w / (values.map (fun v => greediness ^ v)).sum)

/-- The new_candidates list of source lines 209, 216: curves with
cutoff 0. -/
def newCandidatesOf (ncurves : ℕ) (cutoff : List ℕ) : List ℕ :=
  (List.range ncurves).filter (fun j => decide (cutoff.getD j 0 = 0))

/-- The candidates list of source line 213: in-progress curves with
0 < cutoff < nepochs. -/
def candidatesOf (ncurves nepochs : ℕ) (cutoff : List ℕ) : List ℕ :=
  (List.range ncurves).filter
    (fun j => decide (cutoff.getD j 0 < nepochs ∧ 0 < cutoff.getD j 0))

section
open scoped Classical

/-- SoftGreedy selection (source lines 206-234).  `u i` is the uniform
draw of line 207, `pnew` the p_new of line 192, `selCut i` the
np.random.randint(nepochs) of line 221; `chooseNew` embeds the uniform
np.random.choice over new_candidates, `chooseSM` the probability-weighted
np.random.choice over candidates (lines 225-234), receiving the computed
softmax weights of the candidates' values at the comparison cutoff. -/
noncomputable def softGreedySel (ncurves nepochs : ℕ) (pnew greediness : ℝ)
    (u : ℕ → ℝ) (selCut : ℕ → ℕ) (curves : ℕ → List ℝ)
    (chooseNew : ℕ → List ℕ → ℕ) (chooseSM : ℕ → List ℕ → List ℝ → ℕ)
    (i : ℕ) (cutoff : List ℕ) : ℕ :=
  if u i < pnew ∧ newCandidatesOf ncurves cutoff ≠ [] then
    chooseNew i (newCandidatesOf ncurves cutoff)
  else if candidatesOf ncurves nepochs cutoff = [] then
    chooseNew i (newCandidatesOf ncurves cutoff)
  else
    chooseSM i (candidatesOf ncurves nepochs cutoff)
      (softmaxWeights greediness
        ((candidatesOf ncurves nepochs cutoff).map (fun j =>
          (curves j).getD (min (selCut i) (cutoff.getD j 0 - 1)) 0)))

end

/-- The four recognized ordering policies (source lines 199-236); any
other name raises NotImplementedError. -/
inductive McPolicy
  | urs | bfs | dfs | softGreedy

/-- Per-batch-element randomness consumed by the non-load_path branch of
multicurves get_batch: the policy draws of lines 192-236, the curve
parameters and noise of lines 174-185 (the scipy-transformed draws
c, alpha and the additive noise vector enter directly), and the shuffled
ids of lines 195-196. -/
structure McDraws where
  pnew : ℝ
  greediness : ℝ
  u : ℕ → ℝ
  selCut : ℕ → ℕ
  chooseU : ℕ → List ℕ → ℕ
  chooseNew : ℕ → List ℕ → ℕ
  chooseSM : ℕ → List ℕ → List ℝ → ℕ
  cs : ℕ → ℝ
  alphas : ℕ → ℝ
  noises : ℕ → List ℝ
  cMinusA : ℝ
  ccfg : ℕ → List ℚ
  ids : List ℕ

/-- A trivial concrete instantiation of the multicurves randomness, used
to evaluate the embedding at one input. -/
noncomputable def mcDrawsEx : ℕ → McDraws := fun _ =>
  { pnew := 1 / 2
    greediness := 2
    u := fun _ => 0
    selCut := fun _ => 0
    chooseU := fun _ l => l.headD 0
    chooseNew := fun _ l => l.headD 0
    chooseSM := fun _ l _ => l.headD 0
    cs := fun _ => 0
    alphas := fun _ => 0
    noises := fun _ => []
    cMinusA := 0
    ccfg := fun _ => [0]
    ids := [0, 1] }

/-- The selection function of one batch element for a given policy. -/
noncomputable def mcSelOf (pol : McPolicy) (ncurves nepochs : ℕ)
    (d : McDraws) (curves : ℕ → List ℝ) : ℕ → List ℕ → ℕ :=
  match pol with
  | .urs => ursSel ncurves nepochs d.chooseU
  | .bfs => bfsSel ncurves
  | .dfs => dfsSel nepochs
  | .softGreedy =>
      softGreedySel ncurves nepochs d.pnew d.greediness d.u d.selCut curves
        d.chooseNew d.chooseSM

/-- get_batch of multicurves_with_configurations.py (lines 90-248) with
load_path unset: asserts seq_len == ncurves * nepochs then
num_features >= 2 (lines 151-152), draws num_params (lines 154-157:
num_features - 2 when fix_nparams, else np.random.randint(1,
num_features - 2)), then per batch element computes the noisy pow3 curves
(lines 170-189, with a = c - c_minus_a), runs the ordering loop and stacks
the columns (lines 197-248). -/
noncomputable def get_batch_mc (batch_size seq_len num_features
    ncurves nepochs : ℕ) (fix_nparams : Bool) (np_draw : ℕ)
    (pol : McPolicy) (draws : ℕ → McDraws) : Except String BatchData :=
  if ¬ seq_len = ncurves * nepochs then .error "AssertionError"
  else if ¬ 2 ≤ num_features then .error "AssertionError"
  else
    match (if fix_nparams then .ok (num_features - 2)
           else np_randint 1 (num_features - 2) np_draw) with
    | .error e => .error e
    | .ok _num_params =>
      let elems := (List.range batch_size).map (fun e =>
        let d := draws e
        let curves := fun c =>
          mcCurveVals nepochs (d.cs c - d.cMinusA) (d.cs c) (d.alphas c)
            (d.noises c)
        runMc (mcSelOf pol ncurves nepochs d curves) curves d.ccfg d.ids
          ncurves (ncurves * nepochs))
      let y := (List.range seq_len).map (fun i =>
        elems.map (fun s => s.vals.getD i 0))
      .ok { x := stackDim1 []
              (elems.map (fun s =>
                (List.range s.id_curve.length).map (fun i =>
                  (s.id_curve.getD i 0 : ℚ) :: (s.epoch.getD i 0 : ℚ) ::
                    s.cfg.getD i []))) seq_len
            y := y, target_y := y }

/-! ## Specification-side descriptions of the loop outputs

These closed forms are what the stateful loops above are proved to
compute; they are introduced only to state and prove the theorems. -/

/-- The curve id owning sequence position `i` (cid = ordering[i], source
line 402). -/
def cidAt (ordering : List ℕ) (i : ℕ) : ℕ := ordering.getD i 0

/-- The value curve_counters[cid] holds when position `i` is processed:
the number of earlier positions owned by the same curve. -/
def counterAt (ordering : List ℕ) (i : ℕ) : ℕ :=
  (ordering.take i).count (cidAt ordering i)

/-- id_curve[i] (source lines 403-406). -/
def idAt (ordering : List ℕ) (sep i : ℕ) : ℕ :=
  if i < sep ∨ 0 < counterAt ordering i then cidAt ordering i + 1 else 0

/-- The per-position epoch values of a selection trace: entry i is the
number of occurrences of sels[i] in sels[0..i].  `cnt` accumulates the
occurrence counts of the already-processed prefix. -/
def prefEpochsAux (cnt : ℕ → ℕ) : List ℕ → List ℕ
  | [] => []
  | a :: l => (cnt a + 1) :: prefEpochsAux (fun c => if c = a then cnt c + 1 else cnt c) l

/-- Invariant of the multicurves ordering loop: the cutoff vector tracks
the per-curve occurrence counts of the selection trace, all selections are
in range, and the epoch column is the per-position occurrence count. -/
def McInv (ncurves : ℕ) (s : McState) : Prop :=
  s.cutoff.length = ncurves
    ∧ (∀ c, s.cutoff.getD c 0 = s.sels.count c)
    ∧ (∀ x ∈ s.sels, x < ncurves)
    ∧ s.epoch = prefEpochsAux (fun _ => 0) s.sels

/-- The per-curve epoch subsequence: the epoch values at the positions of
the trace owned by curve `c`, in sequence order. -/
def epochsOf (s : McState) (c : ℕ) : List ℕ :=
  ((s.sels.zip s.epoch).filter (fun p => p.1 == c)).map Prod.snd

/-! ## Theorems -/

/-- C7: for all real a > 0, alpha > 0, any c, and all x2 >= x1 >= 0,
pow3(x1, a, c, alpha) <= pow3(x2, a, c, alpha): the pow3 curve of
multicurves_with_configurations.py is monotone non-decreasing in x on
x >= 0. -/
theorem C7_pow3_monotone (a c alpha x1 x2 : ℝ) (ha : 0 < a)
    (halpha : 0 < alpha) (hx1 : 0 ≤ x1) (hx : x1 ≤ x2) :
    pow3 x1 a c alpha ≤ pow3 x2 a c alpha := by
  unfold pow3
  have h1 : (0:ℝ) < x1 + 1 := by linarith
  have h2 : (x2 + 1) ^ (-alpha) ≤ (x1 + 1) ^ (-alpha) :=
    Real.rpow_le_rpow_of_nonpos h1 (by linarith) (by linarith)
  nlinarith [h2, mul_le_mul_of_nonneg_left h2 ha.le]

/-- Witness for C7 at x1 = 0, x2 = 1, a = 1, c = 0, alpha = 1. -/
theorem C7_pow3_monotone_witness :
    (0:ℝ) < 1 ∧ pow3 0 1 0 1 ≤ pow3 1 1 0 1 :=
  ⟨by norm_num,
   C7_pow3_monotone 1 0 1 0 1 (by norm_num) (by norm_num) (by norm_num)
     (by norm_num)⟩

/-- C5 counterexample: the claim says progress_noise factorizes
Sigma_ij = sigma^2 * exp(-(X_i-X_j)^2/L) and draws Z standard normal; but
at X = [0], sigma = 2, L = 1 the matrix the code builds (1 + 1e-9) differs
from the claimed one (4 + 1e-9), and the drawn Z is sigma times the
standard draw (2, not 1, for a unit standard draw). -/
theorem C5_cex :
    progressNoiseCov ![(0:ℝ)] 1 0 0 ≠ progressNoiseCovClaimed ![(0:ℝ)] 2 1 0 0
      ∧ progressNoiseZ (n := 1) 2 (fun _ => 1) 0 = 2 := by
  constructor
  · simp only [progressNoiseCov, progressNoiseCovClaimed]
    norm_num [Real.exp_zero]
  · simp [progressNoiseZ]

/-- C5 amended: progress_noise builds the covariance
Sigma_ij = exp(-(X_i-X_j)^2/L) + 1e-9 * delta_ij with no sigma^2 factor
(the matrix is symmetric with diagonal 1 + 1e-9 independent of sigma),
Cholesky-factors it, draws Z = sigma * Zstd with Zstd standard normal
(not a standard-normal Z), and returns C @ Z = sigma * (C @ Zstd). -/
theorem C5_progress_noise_structure (n : ℕ) (X : Fin n → ℝ) (L sigma : ℝ)
    (C : Matrix (Fin n) (Fin n) ℝ) (Zstd : Fin n → ℝ) :
    (∀ i j, progressNoiseCov X L i j = progressNoiseCov X L j i)
      ∧ (∀ i, progressNoiseCov X L i i = 1 + 1 / 10 ^ 9)
      ∧ progress_noise sigma C Zstd = sigma • C.mulVec Zstd := by
  refine ⟨fun i j => ?_, fun i => ?_, ?_⟩
  · simp only [progressNoiseCov]
    rw [show (X i - X j) ^ 2 = (X j - X i) ^ 2 by ring]
    congr 1
    simp [eq_comm]
  · simp [progressNoiseCov]
  · have hz : progressNoiseZ sigma Zstd = sigma • Zstd := by
      funext i; simp [progressNoiseZ]
    rw [progress_noise, hz, Matrix.mulVec_smul]

/-- C2 counterexample: the claim says DatasetPrior.uniform with default
bounds a = 0, b = 1 returns a value strictly inside (0,1) for every input,
including inputs strictly below the table minimum; but on the table built
from samples [1, 2, 3], the input 0 (strictly below the minimum) maps to
exactly 0, which is not strictly inside (0,1). -/
theorem C2_cex :
    DatasetPrior.uniform (output_sorted [1, 2, 3]) 0 0 1 = 0
      ∧ ¬ (0 < DatasetPrior.uniform (output_sorted [1, 2, 3]) 0 0 1
          ∧ DatasetPrior.uniform (output_sorted [1, 2, 3]) 0 0 1 < 1) := by
  have h : output_sorted [1, 2, 3] = [1, 2, 3] :=
    List.mergeSort_eq_self (by decide)
  rw [h, DatasetPrior.uniform, searchsorted_left]
  norm_num [List.countP, List.countP.go]

/-- C2 amended: every calibration table is non-decreasing; but
DatasetPrior.uniform with default bounds a = 0, b = 1 only lies in the
closed interval [0, 1]: it returns exactly 0 for inputs at or below the
table minimum and exactly 1 for inputs strictly above the table maximum;
the strictly-interior (0,1) guarantee holds for the eps-shifted value
uniform(a = eps, b = 1 - eps) used by the normal/beta/gamma/exponential
transforms. -/
theorem C2_table_and_uniform_range (samples : List ℚ) (v : ℚ)
    (hne : samples ≠ []) :
    (output_sorted samples).Sorted (· ≤ ·)
      ∧ 0 ≤ DatasetPrior.uniform (output_sorted samples) v 0 1
      ∧ DatasetPrior.uniform (output_sorted samples) v 0 1 ≤ 1
      ∧ ((∀ x ∈ output_sorted samples, v ≤ x) →
          DatasetPrior.uniform (output_sorted samples) v 0 1 = 0)
      ∧ ((∀ x ∈ output_sorted samples, x < v) →
          DatasetPrior.uniform (output_sorted samples) v 0 1 = 1)
      ∧ 0 < MyRNG.normal_u (output_sorted samples) v
      ∧ MyRNG.normal_u (output_sorted samples) v < 1 := by
  set t := output_sorted samples with ht
  have hlen : t.length = samples.length := by
    rw [ht, output_sorted, List.length_mergeSort]
  have hn : 0 < t.length := by
    rw [hlen]
    exact List.length_pos.mpr hne
  have hnq : (0:ℚ) < t.length := by exact_mod_cast hn
  have hone : (1:ℚ) ≤ t.length := by exact_mod_cast hn
  have hidx : searchsorted_left t v ≤ t.length := List.countP_le_length _
  have hidxq : (searchsorted_left t v : ℚ) ≤ t.length := by exact_mod_cast hidx
  have hidx0 : (0:ℚ) ≤ searchsorted_left t v := by positivity
  refine ⟨List.sorted_mergeSort' samples, ?_, ?_, ?_, ?_, ?_, ?_⟩
  · rw [DatasetPrior.uniform]
    positivity
  · rw [DatasetPrior.uniform]
    rw [div_add' _ _ _ (ne_of_gt hnq), div_le_one hnq]
    nlinarith
  · intro h
    have hz : searchsorted_left t v = 0 := by
      rw [searchsorted_left, List.countP_eq_zero]
      intro a ha
      simp only [decide_eq_true_eq, not_lt]
      exact h a ha
    rw [DatasetPrior.uniform, hz]
    simp
  · intro h
    have hz : searchsorted_left t v = t.length := by
      rw [searchsorted_left, List.countP_eq_length]
      intro a ha
      simp only [decide_eq_true_eq]
      exact h a ha
    rw [DatasetPrior.uniform, hz, sub_zero, one_mul,
      div_self (ne_of_gt hnq), add_zero]
  · rw [MyRNG.normal_u, DatasetPrior.uniform, tableEps]
    have he : (0:ℚ) < 1 / 2 / t.length := by positivity
    have hf : (0:ℚ) ≤ 1 - 1 / 2 / t.length - 1 / 2 / t.length := by
      rw [sub_sub, ← two_mul]
      have : (2:ℚ) * (1 / 2 / t.length) = 1 / t.length := by ring
      rw [this]
      have : (1:ℚ) / t.length ≤ 1 := by
        rw [div_le_one hnq]; exact hone
      linarith
    positivity
  · rw [MyRNG.normal_u, DatasetPrior.uniform, tableEps]
    set N : ℚ := (t.length : ℚ)
    set k : ℚ := (searchsorted_left t v : ℚ)
    have step : (1 - 1 / 2 / N - 1 / 2 / N) * k / N ≤ 1 - 1 / N := by
      rw [sub_sub, ← two_mul]
      have h2 : (2:ℚ) * (1 / 2 / N) = 1 / N := by ring
      rw [h2]
      rw [div_le_iff₀ hnq]
      have h3 : (0:ℚ) ≤ 1 - 1 / N := by
        have : (1:ℚ) / N ≤ 1 := by rw [div_le_one hnq]; exact hone
        linarith
      calc (1 - 1 / N) * k ≤ (1 - 1 / N) * N := by
            exact mul_le_mul_of_nonneg_left hidxq h3
        _ = (1 - 1 / N) * N := rfl
    have hend : 1 - 1 / N + 1 / 2 / N < 1 := by
      have : 1 / 2 / N < 1 / N := by
        rw [div_lt_div_iff₀ hnq hnq]
        nlinarith
      linarith
    linarith

/-- Witness for C2 amended at the table built from samples [1, 2, 3] and
input 0. -/
theorem C2_table_and_uniform_range_witness :
    ([1, 2, 3] : List ℚ) ≠ []
      ∧ ((output_sorted [1, 2, 3]).Sorted (· ≤ ·)
        ∧ 0 ≤ DatasetPrior.uniform (output_sorted [1, 2, 3]) 0 0 1
        ∧ DatasetPrior.uniform (output_sorted [1, 2, 3]) 0 0 1 ≤ 1
        ∧ ((∀ x ∈ output_sorted [1, 2, 3], (0:ℚ) ≤ x) →
            DatasetPrior.uniform (output_sorted [1, 2, 3]) 0 0 1 = 0)
        ∧ ((∀ x ∈ output_sorted [1, 2, 3], x < (0:ℚ)) →
            DatasetPrior.uniform (output_sorted [1, 2, 3]) 0 0 1 = 1)
        ∧ 0 < MyRNG.normal_u (output_sorted [1, 2, 3]) 0
        ∧ MyRNG.normal_u (output_sorted [1, 2, 3]) 0 < 1) :=
  ⟨by decide, C2_table_and_uniform_range [1, 2, 3] 0 (by decide)⟩

/-! ### The assembly loop of hpo_lc_pfn_bnn3c computes the closed forms -/

theorem cidAt_append_mid (pre rest : List ℕ) (cid : ℕ) :
    cidAt (pre ++ cid :: rest) pre.length = cid := by
  rw [cidAt, List.getD_eq_getElem?_getD, List.getElem?_append_right (le_refl _)]
  simp

theorem counterAt_append_mid (pre rest : List ℕ) (cid : ℕ) :
    counterAt (pre ++ cid :: rest) pre.length = pre.count cid := by
  rw [counterAt, cidAt_append_mid, List.take_left]

theorem range_map_succ_decomp {α : Type} (n : ℕ) (f : ℕ → α) :
    (List.range (n + 1)).map f = f 0 :: (List.range n).map (fun k => f (k + 1)) := by
  rw [List.range_succ_eq_map, List.map_cons, List.map_map]
  rfl

/-- The assembly loop of source lines 400-410 computes, position by
position, the closed forms `idAt`, `counterAt`-indexed curve entries and
the per-curve config rows. -/
theorem runAsmAux_spec (sep : ℕ) (cxs : ℕ → List ℚ) (cys : ℕ → List ℝ)
    (ccfg : ℕ → List ℚ) :
    ∀ (suf pre : List ℕ) (s : AsmState), (∀ c, s.counters c = pre.count c) →
      (∀ c, (runAsmAux sep cxs cys ccfg pre.length suf s).counters c
          = (pre ++ suf).count c)
      ∧ (runAsmAux sep cxs cys ccfg pre.length suf s).id_curve
          = s.id_curve ++ (List.range suf.length).map
              (fun k => idAt (pre ++ suf) sep (pre.length + k))
      ∧ (runAsmAux sep cxs cys ccfg pre.length suf s).epoch
          = s.epoch ++ (List.range suf.length).map
              (fun k => (cxs (cidAt (pre ++ suf) (pre.length + k))).getD
                (counterAt (pre ++ suf) (pre.length + k)) 0)
      ∧ (runAsmAux sep cxs cys ccfg pre.length suf s).config
          = s.config ++ (List.range suf.length).map
              (fun k => ccfg (cidAt (pre ++ suf) (pre.length + k)))
      ∧ (runAsmAux sep cxs cys ccfg pre.length suf s).vals
          = s.vals ++ (List.range suf.length).map
              (fun k => (cys (cidAt (pre ++ suf) (pre.length + k))).getD
                (counterAt (pre ++ suf) (pre.length + k)) 0) := by
  intro suf
  induction suf with
  | nil =>
    intro pre s hs
    exact ⟨fun c => by simp [runAsmAux, hs c], by simp [runAsmAux],
      by simp [runAsmAux], by simp [runAsmAux], by simp [runAsmAux]⟩
  | cons cid rest ih =>
    intro pre s hs
    have hL : (pre ++ [cid]) ++ rest = pre ++ cid :: rest := by simp
    have hlen : (pre ++ [cid]).length = pre.length + 1 := by simp
    have hstep : runAsmAux sep cxs cys ccfg pre.length (cid :: rest) s
        = runAsmAux sep cxs cys ccfg (pre ++ [cid]).length rest
            (asmStep sep cxs cys ccfg s pre.length cid) := by
      rw [runAsmAux, hlen]
    have hs' : ∀ c, (asmStep sep cxs cys ccfg s pre.length cid).counters c
        = (pre ++ [cid]).count c := by
      intro c
      simp only [asmStep, List.count_append, List.count_cons, List.count_nil, hs]
      by_cases h : c = cid
      · simp [h]
      · simp [h]
        exact fun hh => h hh.symm
    obtain ⟨h1, h2, h3, h4, h5⟩ :=
      ih (pre ++ [cid]) (asmStep sep cxs cys ccfg s pre.length cid) hs'
    rw [hL] at h1 h2 h3 h4 h5
    have hshift : ∀ k : ℕ, pre.length + (k + 1) = (pre ++ [cid]).length + k := by
      intro k; simp; omega
    have hcid0 : cidAt (pre ++ cid :: rest) (pre.length + 0) = cid := by
      simpa using cidAt_append_mid pre rest cid
    have hctr0 : counterAt (pre ++ cid :: rest) (pre.length + 0) = pre.count cid := by
      simpa using counterAt_append_mid pre rest cid
    refine ⟨?_, ?_, ?_, ?_, ?_⟩
    · intro c
      rw [hstep, h1]
    · rw [hstep, h2, List.length_cons, range_map_succ_decomp]
      simp only [hshift, asmStep, hcid0, hctr0, hs, idAt]
      simp
    · rw [hstep, h3, List.length_cons, range_map_succ_decomp]
      simp only [hshift, asmStep, hcid0, hctr0, hs]
      simp
    · rw [hstep, h4, List.length_cons, range_map_succ_decomp]
      simp only [hshift, asmStep, hcid0]
      simp
    · rw [hstep, h5, List.length_cons, range_map_succ_decomp]
      simp only [hshift, asmStep, hcid0, hctr0, hs]
      simp

/-- The full assembly loop computes the closed forms. -/
theorem runAsm_spec (sep : ℕ) (cxs : ℕ → List ℚ) (cys : ℕ → List ℝ)
    (ccfg : ℕ → List ℚ) (ordering : List ℕ) :
    (∀ c, (runAsm sep cxs cys ccfg ordering).counters c = ordering.count c)
      ∧ (runAsm sep cxs cys ccfg ordering).id_curve
          = (List.range ordering.length).map (fun k => idAt ordering sep k)
      ∧ (runAsm sep cxs cys ccfg ordering).epoch
          = (List.range ordering.length).map
              (fun k => (cxs (cidAt ordering k)).getD (counterAt ordering k) 0)
      ∧ (runAsm sep cxs cys ccfg ordering).config
          = (List.range ordering.length).map (fun k => ccfg (cidAt ordering k))
      ∧ (runAsm sep cxs cys ccfg ordering).vals
          = (List.range ordering.length).map
              (fun k => (cys (cidAt ordering k)).getD (counterAt ordering k) 0) := by
  have h := runAsmAux_spec sep cxs cys ccfg ordering [] initAsm
    (fun c => by simp [initAsm])
  simpa [runAsm, initAsm] using h

theorem getD_map_range {α : Type} (f : ℕ → α) (n i : ℕ) (d : α)
    (h : i < n) : (((List.range n).map f).getD i d) = f i := by
  rw [List.getD_eq_getElem _ _ (by simpa using h)]
  simp

theorem List_getD_mem {α : Type} (l : List α) (i : ℕ) (d : α)
    (h : i < l.length) : l.getD i d ∈ l := by
  rw [List.getD_eq_getElem l d h]
  exact List.getElem_mem h

theorem counterAt_lt_count (ordering : List ℕ) (i : ℕ)
    (h : i < ordering.length) :
    counterAt ordering i < ordering.count (cidAt ordering i) := by
  rw [counterAt, cidAt, List.getD_eq_getElem _ _ h]
  generalize hg : ordering[i] = a
  conv_rhs => rw [← List.take_append_drop i ordering]
  rw [List.count_append, List.drop_eq_getElem_cons h, hg, List.count_cons]
  simp

/-- C3: in every batch element produced by get_batch of hpo_lc_pfn_bnn3c,
the id column holds 0 at position i only when the curve owning position i
(ordering[i]) occurs at no earlier position of the same sequence. -/
theorem C3_id_zero_only_unseen (sep : ℕ) (cxs : ℕ → List ℚ)
    (cys : ℕ → List ℝ) (ccfg : ℕ → List ℚ) (ordering : List ℕ) (i : ℕ)
    (hi : i < ordering.length)
    (h0 : (runAsm sep cxs cys ccfg ordering).id_curve.getD i 1 = 0) :
    ordering.getD i 0 ∉ ordering.take i := by
  obtain ⟨-, hid, -, -, -⟩ := runAsm_spec sep cxs cys ccfg ordering
  rw [hid, getD_map_range _ _ _ _ hi, idAt] at h0
  by_cases hc : i < sep ∨ 0 < counterAt ordering i
  · simp [hc] at h0
  · push_neg at hc
    have hz : counterAt ordering i = 0 := by omega
    rw [counterAt, cidAt] at hz
    exact List.count_eq_zero.mp hz

/-- Witness for C3 at single_eval_pos = 0 and ordering [0, 1]: position 0
carries id 0 and indeed no earlier position holds curve 0. -/
theorem C3_id_zero_only_unseen_witness :
    (0 < ([0, 1] : List ℕ).length
      ∧ (runAsm 0 (fun _ => []) (fun _ => []) (fun _ => [])
          [0, 1]).id_curve.getD 0 1 = 0)
      ∧ ([0, 1] : List ℕ).getD 0 0 ∉ ([0, 1] : List ℕ).take 0 :=
  ⟨⟨by decide, by decide⟩,
   C3_id_zero_only_unseen 0 (fun _ => []) (fun _ => []) (fun _ => [])
     [0, 1] 0 (by decide) (by decide)⟩

/-- C4 counterexample: with single_eval_pos = 0 and ordering [0, 0], curve
0 owns no context position (cutoff_per_curve = 0) and owns position 1, yet
the id column is [0, 1]: the second occurrence carries the real id 1, not
the claimed sentinel 0. -/
theorem C4_cex :
    cutoff_per_curve [0, 0] 0 0 = 0 ∧ cidAt [0, 0] 1 = 0
      ∧ (runAsm 0 (fun _ => []) (fun _ => []) (fun _ => [])
          [0, 0]).id_curve = [0, 1] := by
  refine ⟨by decide, by decide, by decide⟩

/-- C4 amended: a curve with no position before single_eval_pos carries
id 0 exactly at its first occurrence; every later occurrence carries its
real id cid + 1 (because curve_counters is positive once the curve has
appeared anywhere, context or query). -/
theorem C4_unseen_curve_ids (sep : ℕ) (cxs : ℕ → List ℚ)
    (cys : ℕ → List ℝ) (ccfg : ℕ → List ℚ) (ordering : List ℕ) (c i : ℕ)
    (hc : cutoff_per_curve ordering sep c = 0) (hi : i < ordering.length)
    (hcur : ordering.getD i 0 = c) :
    (runAsm sep cxs cys ccfg ordering).id_curve.getD i 1
      = if (ordering.take i).count c = 0 then 0 else c + 1 := by
  obtain ⟨-, hid, -, -, -⟩ := runAsm_spec sep cxs cys ccfg ordering
  rw [hid, getD_map_range _ _ _ _ hi, idAt, counterAt, cidAt, hcur]
  have hnotsep : ¬ i < sep := by
    intro hlt
    rw [cutoff_per_curve, List.count_eq_zero] at hc
    apply hc
    have hlen : i < (ordering.take sep).length := by
      simp [List.length_take]
      omega
    have : (ordering.take sep)[i] = ordering[i] := List.getElem_take ..
    have hmem : ordering[i] ∈ ordering.take sep := by
      rw [← this]
      exact List.getElem_mem hlen
    rwa [← List.getD_eq_getElem ordering 0 hi, hcur] at hmem
  by_cases h0 : (ordering.take i).count c = 0
  · simp [hnotsep, h0]
  · have : 0 < (ordering.take i).count c := by omega
    simp [hnotsep, h0, this]

/-- Witness for C4 amended at ordering [0, 0], single_eval_pos 0, curve 0,
position 1 (an occurrence after the first). -/
theorem C4_unseen_curve_ids_witness :
    (cutoff_per_curve [0, 0] 0 0 = 0 ∧ 1 < ([0, 0] : List ℕ).length
      ∧ ([0, 0] : List ℕ).getD 1 0 = 0)
      ∧ (runAsm 0 (fun _ => []) (fun _ => []) (fun _ => [])
          [0, 0]).id_curve.getD 1 1
        = if (([0, 0] : List ℕ).take 1).count 0 = 0 then 0 else 0 + 1 :=
  ⟨⟨by decide, by decide, by decide⟩,
   C4_unseen_curve_ids 0 (fun _ => []) (fun _ => []) (fun _ => [])
     [0, 0] 0 1 (by decide) (by decide) (by decide)⟩

/-! ### Shapes and ranges of the hpo_lc_pfn_bnn3c batch (C1) -/

theorem elemX_spec (sep : ℕ) (cxs : ℕ → List ℚ) (cys : ℕ → List ℝ)
    (ccfg : ℕ → List ℚ) (ordering : List ℕ) :
    elemX (runAsm sep cxs cys ccfg ordering)
      = (List.range ordering.length).map (fun i =>
          (idAt ordering sep i : ℚ)
            :: (cxs (cidAt ordering i)).getD (counterAt ordering i) 0
            :: ccfg (cidAt ordering i)) := by
  obtain ⟨-, hid, hep, hcf, -⟩ := runAsm_spec sep cxs cys ccfg ordering
  have hlen : (runAsm sep cxs cys ccfg ordering).id_curve.length
      = ordering.length := by
    rw [hid]; simp
  rw [elemX, hlen]
  apply List.map_congr_left
  intro i hi
  have hi' : i < ordering.length := List.mem_range.mp hi
  rw [hid, hep, hcf, getD_map_range _ _ _ _ hi', getD_map_range _ _ _ _ hi',
    getD_map_range _ _ _ _ hi']

theorem curve_xs_length (ordering : List ℕ) (sep n_levels : ℕ)
    (queries : ℕ → List ℕ) (cid : ℕ)
    (hql : (queries cid).length
      = epochs_per_curve ordering cid - cutoff_per_curve ordering sep cid) :
    (curve_xs ordering sep n_levels queries cid).length
      = epochs_per_curve ordering cid := by
  have hle : cutoff_per_curve ordering sep cid ≤ epochs_per_curve ordering cid :=
    (List.take_sublist sep ordering).count_le cid
  rw [curve_xs, List.length_append, List.length_map, List.length_map,
    List.length_range', hql]
  omega

theorem div_nat_bounds (k n : ℕ) (hk : 1 ≤ k) (hkn : k ≤ n) :
    0 < (k : ℚ) / n ∧ (k : ℚ) / n ≤ 1 := by
  have hk' : (0:ℚ) < k := by exact_mod_cast hk
  have hn' : (0:ℚ) < n := lt_of_lt_of_le hk' (by exact_mod_cast hkn)
  exact ⟨div_pos hk' hn', by rw [div_le_one hn']; exact_mod_cast hkn⟩

theorem curve_xs_bounds (ordering : List ℕ) (sep n_levels : ℕ)
    (queries : ℕ → List ℕ) (cid : ℕ)
    (hcnt : epochs_per_curve ordering cid ≤ n_levels)
    (hqr : ∀ k ∈ queries cid,
      cutoff_per_curve ordering sep cid < k ∧ k ≤ n_levels) :
    ∀ q ∈ curve_xs ordering sep n_levels queries cid, 0 < q ∧ q ≤ 1 := by
  intro q hq
  have hle : cutoff_per_curve ordering sep cid ≤ epochs_per_curve ordering cid :=
    (List.take_sublist sep ordering).count_le cid
  rw [curve_xs, List.mem_append] at hq
  rcases hq with h | h
  · simp only [List.mem_map] at h
    obtain ⟨k, hk, hkeq⟩ := h
    obtain ⟨hk1, hk2⟩ := List.mem_range'_1.mp hk
    rw [← hkeq]
    exact div_nat_bounds k n_levels hk1 (by omega)
  · simp only [List.mem_map] at h
    obtain ⟨k, hk, hkeq⟩ := h
    obtain ⟨hk1, hk2⟩ := hqr k hk
    rw [← hkeq]
    exact div_nat_bounds k n_levels (by omega) hk2

/-- C1 amended: on inputs batch_size = 2, seq_len = 20, num_features = 3,
single_eval_pos = 10 (pow3 branch), get_batch returns a Batch whose x
tensor has shape (20, 2, 3) - num_params = np.random.randint(1, 2) is
always 1, so rows have 2 + 1 = 3 entries, not 4 - and whose y and target_y
each have shape (20, 2); every column-0 entry of x is an integer in
{0,...,20}, every column-1 entry lies in (0, 1], and the remaining
(configuration) entries lie in [0, 1], so every x entry is finite.  The
hypotheses state what the numpy samplers guarantee about the per-element
draws: the ordering is a without-replacement sample of 20 slot ids each
repeated n_levels times, the query levels are drawn without replacement
from (cutoff, n_levels], and configurations are uniform draws in [0, 1). -/
theorem C1_shapes_and_ranges (np_draw : ℕ) (draws : ℕ → HpoDraws)
    (hord : ∀ e < 2, (draws e).ordering.length = 20)
    (hmem : ∀ e < 2, ∀ x ∈ (draws e).ordering, x < 20)
    (hcnt : ∀ e < 2, ∀ c < 20,
      epochs_per_curve (draws e).ordering c ≤ (draws e).n_levels)
    (hql : ∀ e < 2, ∀ c < 20, ((draws e).queries c).length
      = epochs_per_curve (draws e).ordering c
        - cutoff_per_curve (draws e).ordering 10 c)
    (hqr : ∀ e < 2, ∀ c < 20, ∀ k ∈ (draws e).queries c,
      cutoff_per_curve (draws e).ordering 10 c < k ∧ k ≤ (draws e).n_levels)
    (hcfg : ∀ e < 2, ∀ c < 20, ((draws e).ccfg c).length = 1)
    (hcfgr : ∀ e < 2, ∀ c < 20, ∀ q ∈ (draws e).ccfg c, 0 ≤ q ∧ q < 1) :
    ∃ b, get_batch_hpo 2 20 3 10 np_draw draws = .ok b
      ∧ b.x.length = 20
      ∧ (∀ g ∈ b.x, g.length = 2 ∧ ∀ row ∈ g, row.length = 3)
      ∧ b.y.length = 20 ∧ (∀ r ∈ b.y, r.length = 2)
      ∧ b.target_y = b.y
      ∧ (∀ g ∈ b.x, ∀ row ∈ g,
          (∃ k : ℕ, k ≤ 20 ∧ row.getD 0 0 = (k : ℚ))
          ∧ (0 < row.getD 1 0 ∧ row.getD 1 0 ≤ 1)
          ∧ (∀ q ∈ row.drop 2, 0 ≤ q ∧ q ≤ 1)) := by
  have hred : get_batch_hpo 2 20 3 10 np_draw draws
      = .ok { x := stackDim1 []
                (((List.range 2).map (fun e =>
                  runAsm 10 (curve_xs (draws e).ordering 10 (draws e).n_levels
                      (draws e).queries)
                    (draws e).cys (draws e).ccfg (draws e).ordering)).map elemX) 20
              y := (List.range 20).map (fun i =>
                ((List.range 2).map (fun e =>
                  runAsm 10 (curve_xs (draws e).ordering 10 (draws e).n_levels
                      (draws e).queries)
                    (draws e).cys (draws e).ccfg (draws e).ordering)).map
                  (fun s => s.vals.getD i 0))
              target_y := (List.range 20).map (fun i =>
                ((List.range 2).map (fun e =>
                  runAsm 10 (curve_xs (draws e).ordering 10 (draws e).n_levels
                      (draws e).queries)
                    (draws e).cys (draws e).ccfg (draws e).ordering)).map
                  (fun s => s.vals.getD i 0)) } := rfl
  refine ⟨_, hred, ?_, ?_, ?_, ?_, rfl, ?_⟩
  · simp [stackDim1]
  · intro g hg
    rw [stackDim1] at hg
    obtain ⟨i, hi, rfl⟩ := List.mem_map.mp hg
    have hi' : i < 20 := List.mem_range.mp hi
    constructor
    · simp
    · intro row hrow
      obtain ⟨el, hel, rfl⟩ := List.mem_map.mp hrow
      obtain ⟨s, hsm, rfl⟩ := List.mem_map.mp hel
      obtain ⟨e, he, rfl⟩ := List.mem_map.mp hsm
      have he' : e < 2 := List.mem_range.mp he
      rw [elemX_spec, hord e he', getD_map_range _ _ _ _ hi']
      have hcid : cidAt (draws e).ordering i < 20 :=
        hmem e he' (cidAt (draws e).ordering i)
          (by rw [cidAt]
              exact List_getD_mem _ _ _ (by rw [hord e he']; exact hi'))
      simp [hcfg e he' _ hcid]
  · simp
  · intro r hr
    obtain ⟨i, hi, rfl⟩ := List.mem_map.mp hr
    simp
  · intro g hg row hrow
    rw [stackDim1] at hg
    obtain ⟨i, hi, rfl⟩ := List.mem_map.mp hg
    have hi' : i < 20 := List.mem_range.mp hi
    obtain ⟨el, hel, rfl⟩ := List.mem_map.mp hrow
    obtain ⟨s, hsm, rfl⟩ := List.mem_map.mp hel
    obtain ⟨e, he, rfl⟩ := List.mem_map.mp hsm
    have he' : e < 2 := List.mem_range.mp he
    rw [elemX_spec, hord e he', getD_map_range _ _ _ _ hi']
    have hilen : i < (draws e).ordering.length := by rw [hord e he']; exact hi'
    have hcid : cidAt (draws e).ordering i < 20 :=
      hmem e he' (cidAt (draws e).ordering i)
        (by rw [cidAt]; exact List_getD_mem _ _ _ hilen)
    refine ⟨⟨idAt (draws e).ordering 10 i, ?_, by simp⟩, ?_, ?_⟩
    · rw [idAt]
      split
      · rw [cidAt] at hcid ⊢
        omega
      · omega
    · have hctr : counterAt (draws e).ordering i
          < (curve_xs (draws e).ordering 10 (draws e).n_levels
              (draws e).queries (cidAt (draws e).ordering i)).length := by
        rw [curve_xs_length _ _ _ _ _ (hql e he' _ hcid)]
        exact counterAt_lt_count _ _ hilen
      have hq := curve_xs_bounds (draws e).ordering 10 (draws e).n_levels
        (draws e).queries (cidAt (draws e).ordering i)
        (hcnt e he' _ hcid) (hqr e he' _ hcid)
        ((curve_xs (draws e).ordering 10 (draws e).n_levels (draws e).queries
            (cidAt (draws e).ordering i)).getD
          (counterAt (draws e).ordering i) 0)
        (List_getD_mem _ _ _ hctr)
      simpa using hq
    · intro q hq
      simp only [List.drop_succ_cons, List.drop_zero] at hq
      have := hcfgr e he' _ hcid q hq
      exact ⟨this.1, this.2.le⟩

/-- C1 counterexample: at the very inputs of the claim (batch_size = 2,
seq_len = 20, num_features = 3, single_eval_pos = 10) the first row of the
x tensor has 3 entries, not the claimed 4: num_params =
np.random.randint(1, num_features - 1) = randint(1, 2) is always 1, so x
has shape (20, 2, 3). -/
theorem C1_cex :
    (get_batch_hpo 2 20 3 10 0 hpoDrawsEx).toOption.map
      (fun b => (b.x.length, (b.x.getD 0 []).length,
        ((b.x.getD 0 []).getD 0 []).length))
      = some (20, 2, 3) := by
  decide

/-- Witness for C1 amended at the concrete draws `hpoDrawsEx`. -/
theorem C1_shapes_and_ranges_witness :
    (∀ e < 2, (hpoDrawsEx e).ordering.length = 20)
      ∧ (∃ b, get_batch_hpo 2 20 3 10 0 hpoDrawsEx = .ok b
          ∧ b.x.length = 20
          ∧ (∀ g ∈ b.x, g.length = 2 ∧ ∀ row ∈ g, row.length = 3)
          ∧ b.y.length = 20 ∧ (∀ r ∈ b.y, r.length = 2)
          ∧ b.target_y = b.y
          ∧ (∀ g ∈ b.x, ∀ row ∈ g,
              (∃ k : ℕ, k ≤ 20 ∧ row.getD 0 0 = (k : ℚ))
              ∧ (0 < row.getD 1 0 ∧ row.getD 1 0 ≤ 1)
              ∧ (∀ q ∈ row.drop 2, 0 ≤ q ∧ q ≤ 1))) :=
  ⟨by decide,
   C1_shapes_and_ranges 0 hpoDrawsEx (by decide) (by decide) (by decide)
     (by decide) (by decide) (by decide) (by decide)⟩

/-! ### Fail-fast assertions and the empty randint range (C8, C9) -/

/-- C8: get_batch fails fast via precondition assertion on malformed
shapes: get_batch of hpo_lc_pfn_bnn3c with num_features < 2 raises
AssertionError (line 330), and get_batch of
multicurves_with_configurations (load_path unset) with
seq_len != ncurves * nepochs, or with num_features < 2, raises
AssertionError (lines 151-152) - in each case the error is returned
before any batch data is produced. -/
theorem C8_assertions :
    (∀ bs sl nf sep d draws, nf < 2 →
      get_batch_hpo bs sl nf sep d draws = .error "AssertionError")
      ∧ (∀ bs sl nf nc ne fp d pol draws, sl ≠ nc * ne →
        get_batch_mc bs sl nf nc ne fp d pol draws = .error "AssertionError")
      ∧ (∀ bs nf nc ne fp d pol draws, nf < 2 →
        get_batch_mc bs (nc * ne) nf nc ne fp d pol draws
          = .error "AssertionError") := by
  refine ⟨?_, ?_, ?_⟩
  · intro bs sl nf sep d draws h
    rw [get_batch_hpo, if_pos (by omega)]
  · intro bs sl nf nc ne fp d pol draws h
    rw [get_batch_mc, if_pos h]
  · intro bs nf nc ne fp d pol draws h
    rw [get_batch_mc, if_neg (not_not_intro rfl), if_pos (by omega)]

/-- Witness for C8 at num_features = 1 (hpo), seq_len = 1 with
ncurves * nepochs = 6, and num_features = 1 with matching seq_len
(multicurves). -/
theorem C8_assertions_witness :
    ((1:ℕ) < 2
      ∧ get_batch_hpo 1 5 1 0 0 hpoDrawsEx = .error "AssertionError")
      ∧ ((1:ℕ) ≠ 2 * 3
        ∧ get_batch_mc 1 1 5 2 3 false 0 .bfs mcDrawsEx
          = .error "AssertionError")
      ∧ ((1:ℕ) < 2
        ∧ get_batch_mc 1 (2 * 3) 1 2 3 false 0 .bfs mcDrawsEx
          = .error "AssertionError") :=
  ⟨⟨by decide, C8_assertions.1 1 5 1 0 0 hpoDrawsEx (by decide)⟩,
   ⟨by decide, C8_assertions.2.1 1 1 5 2 3 false 0 .bfs mcDrawsEx (by decide)⟩,
   ⟨by decide, C8_assertions.2.2 1 1 2 3 false 0 .bfs mcDrawsEx (by decide)⟩⟩

/-- C9: there are inputs that satisfy the asserted preconditions yet never
produce a batch: get_batch of hpo_lc_pfn_bnn3c with num_features = 2
passes the assertion but always calls np.random.randint(1, 1) on an empty
range (line 333) and raises ValueError; get_batch of
multicurves_with_configurations with fix_nparams unset and
num_features in {2, 3} (shape assertions passing) calls
np.random.randint(1, num_features - 2) on an empty range (line 157) and
raises ValueError - for every possible draw. -/
theorem C9_randint_empty_range :
    (∀ bs sl sep d draws,
      get_batch_hpo bs sl 2 sep d draws = .error "ValueError")
      ∧ (∀ bs nc ne nf d pol draws, nf = 2 ∨ nf = 3 →
        get_batch_mc bs (nc * ne) nf nc ne false d pol draws
          = .error "ValueError") := by
  constructor
  · intro bs sl sep d draws
    rw [get_batch_hpo, if_neg (by omega)]
    rfl
  · intro bs nc ne nf d pol draws h
    rw [get_batch_mc, if_neg (not_not_intro rfl), if_neg (by omega)]
    rcases h with rfl | rfl <;> rfl

/-- Witness for C9 at num_features = 2 (hpo) and num_features = 2 and 3
(multicurves, fix_nparams unset, seq_len = ncurves * nepochs). -/
theorem C9_randint_empty_range_witness :
    get_batch_hpo 1 5 2 0 0 hpoDrawsEx = .error "ValueError"
      ∧ ((2:ℕ) = 2 ∨ (2:ℕ) = 3)
      ∧ get_batch_mc 1 (2 * 3) 2 2 3 false 0 .bfs mcDrawsEx
        = .error "ValueError"
      ∧ get_batch_mc 1 (2 * 3) 3 2 3 false 0 .softGreedy mcDrawsEx
        = .error "ValueError" :=
  ⟨C9_randint_empty_range.1 1 5 0 0 hpoDrawsEx, Or.inl rfl,
   C9_randint_empty_range.2 1 2 3 2 0 .bfs mcDrawsEx (Or.inl rfl),
   C9_randint_empty_range.2 1 2 3 3 0 .softGreedy mcDrawsEx (Or.inr rfl)⟩

/-! ### Invariants of the multicurves ordering loop (C6, C10) -/

theorem headD_mem {l : List ℕ} (h : l ≠ []) : l.headD 0 ∈ l := by
  cases l <;> simp_all

theorem prefEpochsAux_append (l : List ℕ) :
    ∀ (cnt : ℕ → ℕ) (a : ℕ),
      prefEpochsAux cnt (l ++ [a])
        = prefEpochsAux cnt l ++ [cnt a + l.count a + 1] := by
  induction l with
  | nil => intro cnt a; simp [prefEpochsAux]
  | cons b t ih =>
    intro cnt a
    simp only [List.cons_append, prefEpochsAux]
    rw [show t.append [a] = t ++ [a] from rfl, ih]
    simp only [List.count_cons]
    congr 2
    by_cases h : a = b
    · subst h
      simp
      omega
    · have h' : (b == a) = false := by
        simp only [beq_eq_false_iff_ne, ne_eq]
        exact fun hh => h hh.symm
      simp [h, h']

theorem prefEpochsAux_filter (l : List ℕ) :
    ∀ (cnt : ℕ → ℕ) (c : ℕ),
      ((l.zip (prefEpochsAux cnt l)).filter (fun p => p.1 == c)).map Prod.snd
        = List.range' (cnt c + 1) (l.count c) := by
  induction l with
  | nil => intro cnt c; simp [prefEpochsAux]
  | cons a t ih =>
    intro cnt c
    simp only [prefEpochsAux, List.zip_cons_cons, List.filter_cons]
    by_cases h : a = c
    · subst h
      simp only [beq_self_eq_true, if_true, List.map_cons, ih,
        List.count_cons, beq_self_eq_true]
      rw [List.range'_succ]
    · have h' : (a == c) = false := by
        simp only [beq_eq_false_iff_ne, ne_eq]
        exact h
      simp only [h', Bool.false_eq_true, if_false, ih, List.count_cons, h']
      have hca : ¬ c = a := fun hh => h hh.symm
      simp [hca]

theorem mcStep_McInv (curves : ℕ → List ℝ) (ccfg : ℕ → List ℚ)
    (ids : List ℕ) (ncurves selected : ℕ) (s : McState)
    (hinv : McInv ncurves s) (hsel : selected < ncurves) :
    McInv ncurves (mcStep curves ccfg ids selected s)
      ∧ (mcStep curves ccfg ids selected s).sels = s.sels ++ [selected] := by
  obtain ⟨hlen, hcut, hmem, hep⟩ := hinv
  refine ⟨⟨by simp [mcStep, hlen], ?_, ?_, ?_⟩, rfl⟩
  · intro c
    by_cases h : c = selected
    · subst h
      have hc : c < s.cutoff.length := by rw [hlen]; exact hsel
      have hgot : (s.cutoff.set c (s.cutoff.getD c 0 + 1)).getD c 0
          = s.cutoff.getD c 0 + 1 := by
        simp [List.getD_eq_getElem?_getD, List.getElem?_set_self', hc]
      simp only [mcStep, List.count_append, List.count_cons, List.count_nil]
      rw [hgot, hcut c]
      simp
    · have h' : selected ≠ c := fun hh => h hh.symm
      have hgot : (s.cutoff.set selected (s.cutoff.getD selected 0 + 1)).getD c 0
          = s.cutoff.getD c 0 := by
        simp [List.getD_eq_getElem?_getD, List.getElem?_set_ne h']
      simp only [mcStep, List.count_append, List.count_cons, List.count_nil]
      rw [hgot, hcut c]
      have hbeq : (selected == c) = false := by simp [h']
      simp [hbeq]
  · intro x hx
    simp only [mcStep, List.mem_append, List.mem_singleton] at hx
    rcases hx with hx | rfl
    · exact hmem x hx
    · exact hsel
  · simp only [mcStep, hep, prefEpochsAux_append, hcut selected]
    simp

theorem runMcAux_McInv (sel : ℕ → List ℕ → ℕ) (curves : ℕ → List ℝ)
    (ccfg : ℕ → List ℚ) (ids : List ℕ) (ncurves N : ℕ)
    (hsel : ∀ i s, i < N → McInv ncurves s → s.sels.length = i →
      sel i s.cutoff < ncurves) :
    ∀ (k i0 : ℕ) (s : McState), i0 + k ≤ N → McInv ncurves s →
      s.sels.length = i0 →
      McInv ncurves (runMcAux sel curves ccfg ids i0 k s)
        ∧ (runMcAux sel curves ccfg ids i0 k s).sels.length = i0 + k := by
  intro k
  induction k with
  | zero =>
    intro i0 s hle hinv hlen
    rw [runMcAux]
    exact ⟨hinv, by omega⟩
  | succ k ih =>
    intro i0 s hle hinv hlen
    rw [runMcAux]
    have hv : sel i0 s.cutoff < ncurves := hsel i0 s (by omega) hinv hlen
    obtain ⟨hinv', hsels'⟩ := mcStep_McInv curves ccfg ids ncurves _ s hinv hv
    have hlen' : (mcStep curves ccfg ids (sel i0 s.cutoff) s).sels.length
        = i0 + 1 := by
      rw [hsels', List.length_append, hlen]
      rfl
    obtain ⟨h1, h2⟩ := ih (i0 + 1) _ (by omega) hinv' hlen'
    exact ⟨h1, by rw [h2]; omega⟩

theorem length_eq_sum_count (l : List ℕ) (n : ℕ) (h : ∀ x ∈ l, x < n) :
    l.length = ∑ c ∈ Finset.range n, l.count c := by
  induction l with
  | nil => simp
  | cons a t ih =>
    simp only [List.length_cons, List.count_cons]
    rw [ih (fun x hx => h x (List.mem_cons_of_mem a hx)),
      Finset.sum_add_distrib]
    have h2 : (∑ c ∈ Finset.range n, if (a == c) then 1 else 0) = 1 := by
      simp only [beq_iff_eq]
      rw [Finset.sum_ite_eq (Finset.range n) a (fun _ => 1)]
      simp [h a (List.mem_cons_self a t)]
    omega

theorem exists_count_lt (l : List ℕ) (ncurves nepochs : ℕ)
    (hmem : ∀ x ∈ l, x < ncurves) (hlen : l.length < ncurves * nepochs) :
    ∃ c, c < ncurves ∧ l.count c < nepochs := by
  by_contra hcon
  push_neg at hcon
  have hall : ∀ c ∈ Finset.range ncurves, nepochs ≤ l.count c := fun c hc =>
    hcon c (Finset.mem_range.mp hc)
  have hsum : ncurves * nepochs ≤ ∑ c ∈ Finset.range ncurves, l.count c := by
    calc ncurves * nepochs = ∑ _c ∈ Finset.range ncurves, nepochs := by
          simp [Finset.sum_const, mul_comm]
      _ ≤ _ := Finset.sum_le_sum hall
  rw [← length_eq_sum_count l ncurves hmem] at hsum
  omega

/-- The final states of the multicurves loop satisfy the invariant and the
per-curve epoch subsequences are the consecutive runs 1, ..., k. -/
theorem runMc_epochsOf (sel : ℕ → List ℕ → ℕ) (curves : ℕ → List ℝ)
    (ccfg : ℕ → List ℚ) (ids : List ℕ) (ncurves n : ℕ)
    (hsel : ∀ i s, i < n → McInv ncurves s → s.sels.length = i →
      sel i s.cutoff < ncurves) :
    ∀ c, epochsOf (runMc sel curves ccfg ids ncurves n) c
      = List.range' 1 ((runMc sel curves ccfg ids ncurves n).sels.count c) := by
  have hinv0 : McInv ncurves (initMc ncurves) := by
    refine ⟨by simp [initMc], fun c => ?_, by simp [initMc],
      by simp [initMc, prefEpochsAux]⟩
    simp [initMc, List.getD_eq_getElem?_getD, List.getElem?_replicate]
    split <;> rfl
  obtain ⟨hinv, -⟩ := runMcAux_McInv sel curves ccfg ids ncurves n hsel n 0
    (initMc ncurves) (by omega) hinv0 (by simp [initMc])
  intro c
  obtain ⟨-, -, -, hep⟩ := hinv
  simp only [runMc, epochsOf]
  rw [hep, prefEpochsAux_filter]

theorem ursSel_lt (ncurves nepochs : ℕ) (chooseU : ℕ → List ℕ → ℕ)
    (hU : ∀ i l, l ≠ [] → chooseU i l ∈ l) (i : ℕ) (s : McState)
    (hi : i < ncurves * nepochs) (hinv : McInv ncurves s)
    (hlen : s.sels.length = i) :
    ursSel ncurves nepochs chooseU i s.cutoff < ncurves := by
  obtain ⟨hclen, hcut, hmem, -⟩ := hinv
  obtain ⟨c, hc, hcnt⟩ := exists_count_lt s.sels ncurves nepochs hmem
    (by omega)
  have hmemf : c ∈ (List.range ncurves).filter
      (fun j => decide (s.cutoff.getD j 0 < nepochs)) := by
    rw [List.mem_filter]
    refine ⟨List.mem_range.mpr hc, ?_⟩
    simp only [decide_eq_true_eq]
    rw [hcut c]
    exact hcnt
  rw [ursSel]
  exact List.mem_range.mp
    (List.mem_of_mem_filter (hU i _ (List.ne_nil_of_mem hmemf)))

theorem softGreedySel_lt (ncurves nepochs : ℕ) (pnew greediness : ℝ)
    (u : ℕ → ℝ) (selCut : ℕ → ℕ) (curves : ℕ → List ℝ)
    (chooseNew : ℕ → List ℕ → ℕ) (chooseSM : ℕ → List ℕ → List ℝ → ℕ)
    (hN : ∀ i l, l ≠ [] → chooseNew i l ∈ l)
    (hS : ∀ i l w, l ≠ [] → chooseSM i l w ∈ l)
    (i : ℕ) (s : McState) (hi : i < ncurves * nepochs)
    (hinv : McInv ncurves s) (hlen : s.sels.length = i) :
    softGreedySel ncurves nepochs pnew greediness u selCut curves chooseNew
      chooseSM i s.cutoff < ncurves := by
  obtain ⟨hclen, hcut, hmem, -⟩ := hinv
  obtain ⟨c, hc, hcnt⟩ := exists_count_lt s.sels ncurves nepochs hmem
    (by omega)
  rw [softGreedySel]
  split
  case isTrue h =>
    exact List.mem_range.mp (List.mem_of_mem_filter (hN i _ h.2))
  case isFalse h =>
    split
    case isTrue hcnil =>
      have hc0 : s.sels.count c = 0 := by
        by_contra hne0
        have hcmem : c ∈ candidatesOf ncurves nepochs s.cutoff := by
          rw [candidatesOf, List.mem_filter]
          refine ⟨List.mem_range.mpr hc, ?_⟩
          simp only [decide_eq_true_eq]
          rw [hcut c]
          omega
        rw [hcnil] at hcmem
        exact absurd hcmem (List.not_mem_nil c)
      have hcin : c ∈ newCandidatesOf ncurves s.cutoff := by
        rw [newCandidatesOf, List.mem_filter]
        refine ⟨List.mem_range.mpr hc, ?_⟩
        simp only [decide_eq_true_eq]
        rw [hcut c]
        exact hc0
      exact List.mem_range.mp
        (List.mem_of_mem_filter (hN i _ (List.ne_nil_of_mem hcin)))
    case isFalse hcne =>
      exact List.mem_range.mp (List.mem_of_mem_filter (hS i _ _ hcne))

/-- C10: in the batch elements built by get_batch of
multicurves_with_configurations (non-load_path branch), under each of the
four ordering policies URS, BFS, DFS and SoftGreedy, the epoch values at
the positions owned by any single curve are exactly the consecutive run
1, 2, ..., k (k = the number of positions that curve owns), in strictly
increasing sequence order; in particular every curve's first occurrence
has epoch 1.  The selection oracles return a member of any nonempty
candidate list, as np.random.choice does. -/
theorem C10_epochs_consecutive (ncurves nepochs : ℕ) (h0 : 0 < ncurves)
    (h1 : 0 < nepochs) (curves : ℕ → List ℝ) (ccfg : ℕ → List ℚ)
    (ids : List ℕ) (pnew greediness : ℝ) (u : ℕ → ℝ) (selCut : ℕ → ℕ)
    (chooseU chooseNew : ℕ → List ℕ → ℕ)
    (chooseSM : ℕ → List ℕ → List ℝ → ℕ)
    (hU : ∀ i l, l ≠ [] → chooseU i l ∈ l)
    (hN : ∀ i l, l ≠ [] → chooseNew i l ∈ l)
    (hS : ∀ i l w, l ≠ [] → chooseSM i l w ∈ l) :
    (∀ c, epochsOf (runMc (ursSel ncurves nepochs chooseU) curves ccfg ids
          ncurves (ncurves * nepochs)) c
        = List.range' 1 ((runMc (ursSel ncurves nepochs chooseU) curves ccfg
            ids ncurves (ncurves * nepochs)).sels.count c))
      ∧ (∀ c, epochsOf (runMc (bfsSel ncurves) curves ccfg ids ncurves
            (ncurves * nepochs)) c
          = List.range' 1 ((runMc (bfsSel ncurves) curves ccfg ids ncurves
              (ncurves * nepochs)).sels.count c))
      ∧ (∀ c, epochsOf (runMc (dfsSel nepochs) curves ccfg ids ncurves
            (ncurves * nepochs)) c
          = List.range' 1 ((runMc (dfsSel nepochs) curves ccfg ids ncurves
              (ncurves * nepochs)).sels.count c))
      ∧ (∀ c, epochsOf (runMc (softGreedySel ncurves nepochs pnew greediness
            u selCut curves chooseNew chooseSM) curves ccfg ids ncurves
            (ncurves * nepochs)) c
          = List.range' 1 ((runMc (softGreedySel ncurves nepochs pnew
              greediness u selCut curves chooseNew chooseSM) curves ccfg ids
              ncurves (ncurves * nepochs)).sels.count c)) := by
  refine ⟨?_, ?_, ?_, ?_⟩
  · exact runMc_epochsOf _ curves ccfg ids ncurves (ncurves * nepochs)
      (fun i s hi hinv hlen =>
        ursSel_lt ncurves nepochs chooseU hU i s hi hinv hlen)
  · exact runMc_epochsOf _ curves ccfg ids ncurves (ncurves * nepochs)
      (fun i s hi hinv hlen => Nat.mod_lt i h0)
  · exact runMc_epochsOf _ curves ccfg ids ncurves (ncurves * nepochs)
      (fun i s hi hinv hlen => by
        show i / nepochs < ncurves
        rw [Nat.div_lt_iff_lt_mul h1]
        exact hi)
  · exact runMc_epochsOf _ curves ccfg ids ncurves (ncurves * nepochs)
      (fun i s hi hinv hlen =>
        softGreedySel_lt ncurves nepochs pnew greediness u selCut curves
          chooseNew chooseSM hN hS i s hi hinv hlen)

/-- Witness for C10 at ncurves = 2, nepochs = 2, with headD-based
selection oracles. -/
theorem C10_epochs_consecutive_witness :
    ((0:ℕ) < 2 ∧ (0:ℕ) < 2
      ∧ (∀ (_i : ℕ) (l : List ℕ), l ≠ [] → l.headD 0 ∈ l))
      ∧ ((∀ c, epochsOf (runMc (ursSel 2 2 (fun _ l => l.headD 0))
            (fun _ => []) (fun _ => []) [0, 1] 2 (2 * 2)) c
          = List.range' 1 ((runMc (ursSel 2 2 (fun _ l => l.headD 0))
              (fun _ => []) (fun _ => []) [0, 1] 2 (2 * 2)).sels.count c))
        ∧ (∀ c, epochsOf (runMc (bfsSel 2) (fun _ => []) (fun _ => [])
              [0, 1] 2 (2 * 2)) c
            = List.range' 1 ((runMc (bfsSel 2) (fun _ => []) (fun _ => [])
                [0, 1] 2 (2 * 2)).sels.count c))
        ∧ (∀ c, epochsOf (runMc (dfsSel 2) (fun _ => []) (fun _ => [])
              [0, 1] 2 (2 * 2)) c
            = List.range' 1 ((runMc (dfsSel 2) (fun _ => []) (fun _ => [])
                [0, 1] 2 (2 * 2)).sels.count c))
        ∧ (∀ c, epochsOf (runMc (softGreedySel 2 2 (1 / 2 : ℝ) 2
              (fun _ => 0) (fun _ => 0) (fun _ => [])
              (fun _ l => l.headD 0) (fun _ l _ => l.headD 0))
              (fun _ => []) (fun _ => []) [0, 1] 2 (2 * 2)) c
            = List.range' 1 ((runMc (softGreedySel 2 2 (1 / 2 : ℝ) 2
                (fun _ => 0) (fun _ => 0) (fun _ => [])
                (fun _ l => l.headD 0) (fun _ l _ => l.headD 0))
                (fun _ => []) (fun _ => []) [0, 1] 2 (2 * 2)).sels.count c))) :=
  ⟨⟨by decide, by decide, fun _ _ hl => headD_mem hl⟩,
   C10_epochs_consecutive 2 2 (by decide) (by decide) (fun _ => [])
     (fun _ => []) [0, 1] (1 / 2) 2 (fun _ => 0) (fun _ => 0)
     (fun _ l => l.headD 0) (fun _ l => l.headD 0) (fun _ l _ => l.headD 0)
     (fun _ _ hl => headD_mem hl) (fun _ _ hl => headD_mem hl)
     (fun _ _ _ hl => headD_mem hl)⟩

/-- C6: in get_batch of multicurves_with_configurations with
ordering = "SoftGreedy" and ncurves = 1 (seq_len = nepochs), the single
curve is selected at every one of the nepochs positions and the epoch
column is exactly the strictly increasing run 1, 2, ..., nepochs. -/
theorem C6_softgreedy_single_curve (nepochs : ℕ) (pnew greediness : ℝ)
    (u : ℕ → ℝ) (selCut : ℕ → ℕ) (curves : ℕ → List ℝ)
    (ccfg : ℕ → List ℚ) (ids : List ℕ)
    (chooseNew : ℕ → List ℕ → ℕ) (chooseSM : ℕ → List ℕ → List ℝ → ℕ)
    (hN : ∀ i l, l ≠ [] → chooseNew i l ∈ l)
    (hS : ∀ i l w, l ≠ [] → chooseSM i l w ∈ l) :
    (runMc (softGreedySel 1 nepochs pnew greediness u selCut curves
        chooseNew chooseSM) curves ccfg ids 1 nepochs).sels
      = List.replicate nepochs 0
      ∧ (runMc (softGreedySel 1 nepochs pnew greediness u selCut curves
          chooseNew chooseSM) curves ccfg ids 1 nepochs).epoch
        = List.range' 1 nepochs := by
  have hsel0 : ∀ i (j : ℕ), j < nepochs →
      softGreedySel 1 nepochs pnew greediness u selCut curves chooseNew
        chooseSM i [j] = 0 := by
    intro i j hj
    rw [softGreedySel]
    by_cases hj0 : j = 0
    · subst hj0
      have hnc : newCandidatesOf 1 [0] = [0] := by decide
      have hcand : candidatesOf 1 nepochs [0] = [] := by
        rw [candidatesOf]
        simp
      rw [hnc, hcand]
      split
      · have := hN i [0] (by simp)
        simpa using this
      · simp only [if_pos rfl]
        have := hN i [0] (by simp)
        simpa using this
    · have hpn : decide (([j] : List ℕ).getD 0 0 = 0) = false := by
        simp only [decide_eq_false_iff_not]
        exact hj0
      have hnc : newCandidatesOf 1 [j] = [] := by
        rw [newCandidatesOf, show List.range 1 = [0] from rfl,
          List.filter_cons]
        rw [hpn]
        simp
      have hpc : decide (([j] : List ℕ).getD 0 0 < nepochs
          ∧ 0 < ([j] : List ℕ).getD 0 0) = true := by
        simp only [decide_eq_true_eq]
        exact ⟨hj, Nat.pos_of_ne_zero hj0⟩
      have hcand : candidatesOf 1 nepochs [j] = [0] := by
        rw [candidatesOf, show List.range 1 = [0] from rfl,
          List.filter_cons]
        rw [hpc]
        simp
      rw [hnc, hcand]
      split
      next h => exact absurd h.2 (by simp)
      next h =>
        rw [if_neg (by simp)]
        have := hS i [0] (softmaxWeights greediness ([0].map (fun k =>
          (curves k).getD (min (selCut i) ((([j]:List ℕ).getD k 0) - 1)) 0)))
          (by simp)
        simpa using this
  have main : ∀ (k j : ℕ) (s : McState), j + k = nepochs →
      s.cutoff = [j] → s.sels = List.replicate j 0 →
      s.epoch = List.range' 1 j →
      (runMcAux (softGreedySel 1 nepochs pnew greediness u selCut curves
          chooseNew chooseSM) curves ccfg ids j k s).sels
        = List.replicate nepochs 0
      ∧ (runMcAux (softGreedySel 1 nepochs pnew greediness u selCut curves
          chooseNew chooseSM) curves ccfg ids j k s).epoch
        = List.range' 1 nepochs := by
    intro k
    induction k with
    | zero =>
      intro j s hk hc hs he
      rw [runMcAux]
      have hj : j = nepochs := by omega
      subst hj
      exact ⟨hs, he⟩
    | succ k ih =>
      intro j s hk hc hs he
      rw [runMcAux]
      have hjlt : j < nepochs := by omega
      have hselj : softGreedySel 1 nepochs pnew greediness u selCut curves
          chooseNew chooseSM j s.cutoff = 0 := by
        rw [hc]
        exact hsel0 j j hjlt
      rw [hselj]
      apply ih (j + 1)
      · omega
      · rw [mcStep, hc]
        rfl
      · rw [mcStep, hs]
        rw [List.replicate_succ' j 0]
      · rw [mcStep, he, hc]
        have h2 : ([j] : List ℕ).getD 0 0 + 1 = 1 + 1 * j := by
          show j + 1 = 1 + 1 * j
          omega
        rw [h2]
        exact (List.range'_concat 1 j).symm
  have h := main nepochs 0 (initMc 1) (by omega) (by rfl) (by rfl) (by rfl)
  exact ⟨h.1, h.2⟩

/-- Witness for C6 at nepochs = 3 with headD-based selection oracles. -/
theorem C6_softgreedy_single_curve_witness :
    (∀ (_i : ℕ) (l : List ℕ), l ≠ [] → l.headD 0 ∈ l)
      ∧ ((runMc (softGreedySel 1 3 (1 / 2 : ℝ) 2 (fun _ => 0) (fun _ => 0)
            (fun _ => []) (fun _ l => l.headD 0) (fun _ l _ => l.headD 0))
          (fun _ => []) (fun _ => []) [5] 1 3).sels = List.replicate 3 0
        ∧ (runMc (softGreedySel 1 3 (1 / 2 : ℝ) 2 (fun _ => 0) (fun _ => 0)
            (fun _ => []) (fun _ l => l.headD 0) (fun _ l _ => l.headD 0))
          (fun _ => []) (fun _ => []) [5] 1 3).epoch = List.range' 1 3) :=
  ⟨fun _ _ hl => headD_mem hl,
   C6_softgreedy_single_curve 3 (1 / 2) 2 (fun _ => 0) (fun _ => 0)
     (fun _ => []) (fun _ => []) [5] (fun _ l => l.headD 0)
     (fun _ l _ => l.headD 0) (fun _ _ hl => headD_mem hl)
     (fun _ _ _ hl => headD_mem hl)⟩

end IfBO
